import Mathlib

/-!
Verification development for the electorate-mailer application (`app.py`).

Strings are modelled as `List Char`; pandas rows are modelled as records of
string fields; the two input CSV tables are lists of such records.  Every
definition is translated from the corresponding Python function in `app.py`
(line references in the doc comments), except those explicitly marked as
following the specification's wording for refinement comparisons.
-/

/-- Strings, modelled as lists of characters. -/
abbrev Str := List Char

/-- Whitespace as recognised by Python's `str.strip()` / regex `\s`
(ASCII range: space, tab, newline, carriage return, vertical tab, form feed). -/
def pyIsSpace (c : Char) : Bool :=
  c = ' ' || c = '\t' || c = '\n' || c = '\r' || c = '\x0b' || c = '\x0c'

/-- Python `str.strip()`: remove leading and trailing whitespace. -/
def strip (s : Str) : Str :=
  ((s.dropWhile pyIsSpace).reverse.dropWhile pyIsSpace).reverse

/-- Python `str.split(sep)` for a single-character separator `sep`
(on an empty string it returns `[""]`, like Python). -/
def splitChar (sep : Char) : Str → List Str
  | [] => [[]]
  | c :: cs =>
    let r := splitChar sep cs
    if c = sep then [] :: r else (c :: r.headD []) :: r.tail

/-- Token extraction from a letter's raw `ELECTORATE` and `STATE` fields,
translated from `app.py` lines 97-111: split the electorate field on
newlines, split each part on commas stripping each piece, keep the stripped
values that are non-empty, then append the stripped state if non-empty. -/
def extractTokens (electorateRaw stateRaw : Str) : List Str :=
  let temp := ((splitChar '\n' electorateRaw).map
    (fun part => (splitChar ',' part).map strip)).flatten
  let electorates := temp.filterMap
    (fun e => if strip e = [] then none else some (strip e))
  let st := strip stateRaw
  if st = [] then electorates else electorates ++ [st]

/-- Token extraction written following the spec's wording (spec section 4.1):
"split the electorate field first on newline characters, then split each
resulting segment on commas; trim whitespace from every resulting token;
discard empty tokens. Append the trimmed state field as an additional
candidate token if non-empty after trimming." -/
def specTokens (electorateRaw stateRaw : Str) : List Str :=
  let toks := (((splitChar '\n' electorateRaw).map (splitChar ',')).flatten.map
    strip).filter (fun t => decide (t ≠ []))
  let st := strip stateRaw
  if st = [] then toks else toks ++ [st]

/-! ### Date parsing (`parse_date`, `app.py` lines 11-21)

`datetime.strptime(s, fmt)` for the two formats `"%b %d, %Y"` and
`"%B %d, %Y"`: a (case-insensitive) month name, one or more whitespace
characters, a day (`3[01]|[12]\d|0[1-9]|[1-9]`, with regex backtracking
between the two-digit and one-digit alternatives), a comma, one or more
whitespace characters, a four-digit year, end of string; then
`datetime(year, month, day)` validates the day against the month length
and requires `year ≥ 1`.  On failure of both formats the result is
`datetime.min`, i.e. year 1, month 1, day 1. -/

/-- The date part of a Python `datetime` (times are always midnight here). -/
structure PyDateTime where
  year : Nat
  month : Nat
  day : Nat
deriving DecidableEq, Repr

/-- `datetime.min`: year 1, January 1. -/
def pyDateTimeMin : PyDateTime := ⟨1, 1, 1⟩

/-- Python `datetime` comparison (lexicographic on year, month, day). -/
def pyDateLe (a b : PyDateTime) : Prop :=
  a.year < b.year ∨ (a.year = b.year ∧
    (a.month < b.month ∨ (a.month = b.month ∧ a.day ≤ b.day)))

instance (a b : PyDateTime) : Decidable (pyDateLe a b) := by
  unfold pyDateLe; exact inferInstance

/-- Abbreviated month names (`%b`), lower-cased, in month order. -/
def monthAbbrevNames : List Str :=
  ["jan".toList, "feb".toList, "mar".toList, "apr".toList, "may".toList,
   "jun".toList, "jul".toList, "aug".toList, "sep".toList, "oct".toList,
   "nov".toList, "dec".toList]

/-- Full month names (`%B`), lower-cased, in month order. -/
def monthFullNames : List Str :=
  ["january".toList, "february".toList, "march".toList, "april".toList,
   "may".toList, "june".toList, "july".toList, "august".toList,
   "september".toList, "october".toList, "november".toList,
   "december".toList]

/-- Case-insensitive test that `pat` (already lower-case) starts `s`. -/
def startsWithCI (pat s : Str) : Bool :=
  decide ((s.take pat.length).map Char.toLower = pat)

/-- Try each month name in turn (names are pairwise non-prefix, so at most
one can match); return the 1-based month number and the remaining input. -/
def matchMonthAux : List Str → Nat → Str → Option (Nat × Str)
  | [], _, _ => none
  | name :: rest, i, s =>
    if startsWithCI name s then some (i, s.drop name.length)
    else matchMonthAux rest (i + 1) s

/-- Regex `\s+`: at least one whitespace character, consumed greedily. -/
def eatSpacesOne (s : Str) : Option Str :=
  match s with
  | c :: rest => if pyIsSpace c then some (rest.dropWhile pyIsSpace) else none
  | [] => none

/-- The numeric value of a decimal digit, if `c` is one. -/
def readDigit (c : Char) : Option Nat :=
  if '0' ≤ c ∧ c ≤ '9' then some (c.toNat - '0'.toNat) else none

/-- Two-digit day alternatives of `%d` (`3[01]|[12]\d|0[1-9]`): exactly the
two-digit strings with value 1 to 31. -/
def parseDayTwo : Str → Option (Nat × Str)
  | c1 :: c2 :: rest =>
    match readDigit c1, readDigit c2 with
    | some d1, some d2 =>
      let v := d1 * 10 + d2
      if 1 ≤ v ∧ v ≤ 31 then some (v, rest) else none
    | _, _ => none
  | _ => none

/-- One-digit day alternative of `%d` (`[1-9]`). -/
def parseDayOne : Str → Option (Nat × Str)
  | c :: rest =>
    match readDigit c with
    | some d => if 1 ≤ d then some (d, rest) else none
    | none => none
  | [] => none

/-- After the day: a literal comma, `\s+`, a four-digit year (`%Y`), and
end of input.  Returns the year. -/
def parseTailYear : Str → Option Nat
  | ',' :: rest =>
    match eatSpacesOne rest with
    | some r2 =>
      match r2 with
      | [a, b, c, d] =>
        match readDigit a, readDigit b, readDigit c, readDigit d with
        | some x, some y, some z, some w =>
          some (x * 1000 + y * 100 + z * 10 + w)
        | _, _, _, _ => none
      | _ => none
    | none => none
  | _ => none

/-- The regex-matching part of `strptime(s, "<month> %d, %Y")`, with the
backtracking between the two-digit and one-digit day alternatives. -/
def strptimeMDY (monthNames : List Str) (s : Str) : Option (Nat × Nat × Nat) :=
  match matchMonthAux monthNames 1 s with
  | none => none
  | some (m, r1) =>
    match eatSpacesOne r1 with
    | none => none
    | some r2 =>
      match parseDayTwo r2 with
      | some (d, r3) =>
        match parseTailYear r3 with
        | some y => some (m, d, y)
        | none =>
          match parseDayOne r2 with
          | some (d1, r3') =>
            match parseTailYear r3' with
            | some y => some (m, d1, y)
            | none => none
          | none => none
      | none =>
        match parseDayOne r2 with
        | some (d1, r3') =>
          match parseTailYear r3' with
          | some y => some (m, d1, y)
          | none => none
        | none => none

/-- Gregorian leap year test, as in Python's `calendar`/`datetime`. -/
def isLeapYear (y : Nat) : Bool :=
  y % 4 = 0 && (y % 100 ≠ 0 || y % 400 = 0)

/-- Number of days in a month (1-based), as validated by `datetime`. -/
def daysInMonth (y m : Nat) : Nat :=
  if m = 2 then (if isLeapYear y then 29 else 28)
  else if m = 4 ∨ m = 6 ∨ m = 9 ∨ m = 11 then 30
  else 31

/-- The `datetime(year, month, day)` constructor's validation: `year ≥ 1`
(MINYEAR) and the day within the month's length.  A failure raises
`ValueError`, caught by `parse_date`'s `except` clauses. -/
def mkValidDate (m d y : Nat) : Option PyDateTime :=
  if 1 ≤ y ∧ 1 ≤ d ∧ d ≤ daysInMonth y m then some ⟨y, m, d⟩ else none

/-- `datetime.strptime(s, fmt)` for format `"<month> %d, %Y"`, returning
`none` where Python raises `ValueError`. -/
def strptimeDate (monthNames : List Str) (s : Str) : Option PyDateTime :=
  match strptimeMDY monthNames s with
  | some (m, d, y) => mkValidDate m d y
  | none => none

/-- `parse_date` (`app.py` lines 11-21): try `"%b %d, %Y"`, then
`"%B %d, %Y"`, and fall back to `datetime.min`. -/
def parse_date (s : Str) : PyDateTime :=
  match strptimeDate monthAbbrevNames s with
  | some dt => dt
  | none =>
    match strptimeDate monthFullNames s with
    | some dt => dt
    | none => pyDateTimeMin

/-! ### Placeholder substitution (`replace_mp_name_in_letter`, `app.py` 23-26) -/

/-- Python `str.replace(pat, repl)` for a non-empty pattern: replace every
non-overlapping occurrence of `pat`, scanning left to right. -/
def replaceAll (pat repl : Str) : Str → Str
  | [] => []
  | c :: cs =>
    if pat.isPrefixOf (c :: cs) then
      repl ++ replaceAll pat repl (cs.drop (pat.length - 1))
    else
      c :: replaceAll pat repl cs
termination_by s => s.length
decreasing_by
  · simp only [List.length_cons, List.length_drop]
    omega
  · simp only [List.length_cons]
    omega

/-- The literal placeholder token recognised by the program. -/
def mpPlaceholder : Str := "[MP Name]".toList

/-- `replace_mp_name_in_letter` (`app.py` lines 23-26): replace
`"[MP Name]"` with the salutation and last name joined by a space. -/
def replaceMpNameInLetter (letterContent salutation lastName : Str) : Str :=
  replaceAll mpPlaceholder (salutation ++ (' ' :: []) ++ lastName) letterContent

/-! ### Data model: the two input tables -/

/-- One row of the representatives (MPs) CSV table. -/
structure MPRow where
  salutation : Str
  firstName : Str
  lastName : Str
  stateElectorate : Str
deriving DecidableEq, Repr

/-- The value stored in `mp_dict` for one MP (`app.py` lines 85-91). -/
structure MPInfo where
  electorate : Str
  salutation : Str
  firstName : Str
  lastName : Str
  fullname : Str
deriving DecidableEq, Repr

/-- One row of the letters CSV table. -/
structure LetterRow where
  electorate : Str
  submissionDate : Str
  yourLetter : Str
  postcode : Str
  state : Str
deriving DecidableEq, Repr

/-- The per-letter record appended to a bucket (`app.py` lines 122-127). -/
structure LetterCopy where
  submissionDate : Str
  yourLetter : Str
  postcode : Str
  state : Str
deriving DecidableEq, Repr

/-- `f"{mp['First name']} {mp['Last name']}"`. -/
def fullNameOf (mp : MPRow) : Str := mp.firstName ++ (' ' :: []) ++ mp.lastName

/-- `mp_key = f"{electorate}_{full_name}"` (`app.py` line 84). -/
def mpKeyOf (mp : MPRow) : Str := mp.stateElectorate ++ ('_' :: []) ++ fullNameOf mp

/-- The `mp_dict` entry built from one MP row (`app.py` lines 85-91). -/
def mpInfoOf (mp : MPRow) : MPInfo :=
  ⟨mp.stateElectorate, mp.salutation, mp.firstName, mp.lastName, fullNameOf mp⟩

/-- The fields of a letter row copied into a bucket (`app.py` 122-127). -/
def copyOf (l : LetterRow) : LetterCopy :=
  ⟨l.submissionDate, l.yourLetter, l.postcode, l.state⟩

/-- The candidate token list of a letter row (`app.py` lines 97-111). -/
def tokensOf (l : LetterRow) : List Str := extractTokens l.electorate l.state

/-! ### Insertion-ordered dictionaries (Python `dict` as association list) -/

/-- Python `dict` lookup: the value at key `k`, if present. -/
def alookup {β : Type} : List (Str × β) → Str → Option β
  | [], _ => none
  | kv :: rest, k => if kv.1 = k then some kv.2 else alookup rest k

/-- Python `dict` assignment `d[k] = v`: overwrite in place if the key is
present (keeping its position), otherwise append at the end. -/
def ainsert {β : Type} : List (Str × β) → Str → β → List (Str × β)
  | [], k, v => [(k, v)]
  | kv :: rest, k, v => if kv.1 = k then (k, v) :: rest else kv :: ainsert rest k v

/-- `mp_dict` (`app.py` lines 80-91): keyed by `mpKeyOf`, later rows with
the same key silently overwrite earlier ones. -/
def buildMpDict (mps : List MPRow) : List (Str × MPInfo) :=
  mps.foldl (fun d mp => ainsert d (mpKeyOf mp) (mpInfoOf mp)) []

/-- `matching_mps` (`app.py` line 115): the keys of the MPs whose
`Electorate` field equals the token, by exact string equality. -/
def matchingMps (mpDict : List (Str × MPInfo)) (tok : Str) : List Str :=
  (mpDict.filter (fun kv => decide (kv.2.electorate = tok))).map Prod.fst

/-- The assignment map from MP key to its list of letter copies. -/
abbrev Buckets := List (Str × List LetterCopy)

/-- `app.py` lines 118-127: create the bucket on first use, then append the
letter copy at the end of the bucket. -/
def addLetter : Buckets → Str → LetterCopy → Buckets
  | [], k, v => [(k, [v])]
  | kv :: rest, k, v =>
    if kv.1 = k then (kv.1, kv.2 ++ [v]) :: rest else kv :: addLetter rest k v

/-- `electorate_letters` (`app.py` lines 94-127): for every letter, for
every candidate token, for every matching MP key, append a copy of the
letter to that MP's bucket. -/
def electorateLetters (mpDict : List (Str × MPInfo)) (letters : List LetterRow) :
    Buckets :=
  letters.foldl (fun b l =>
    (tokensOf l).foldl (fun b tok =>
      (matchingMps mpDict tok).foldl (fun b k => addLetter b k (copyOf l)) b) b) []

/-- The bucket of key `k` (empty if absent). -/
def bget (b : Buckets) (k : Str) : List LetterCopy := (alookup b k).getD []

/-- Total number of (letter, representative) pairs in the assignment map. -/
def totalPairs (b : Buckets) : Nat := (b.map (fun kv => kv.2.length)).sum

/-! ### Document rendering (`create_docx_for_electorate`, `app.py` 28-73) -/

/-- An abstraction of the contents added to the DOCX document: paragraphs
with a bold run, plain paragraphs, empty paragraphs, and page breaks. -/
inductive Block where
  | boldPara (text : Str)
  | para (text : Str)
  | emptyPara
  | pageBreak
deriving DecidableEq, Repr

/-- Sort key comparison used by `sorted(letters, key=...)`: by the parsed
submission date. -/
def letterLe (x y : LetterCopy) : Prop :=
  pyDateLe (parse_date x.submissionDate) (parse_date y.submissionDate)

instance : DecidableRel letterLe := fun x y => by
  unfold letterLe pyDateLe; exact inferInstance

instance : IsTotal LetterCopy letterLe :=
  ⟨by intro a b; unfold letterLe pyDateLe; omega⟩

instance : IsTrans LetterCopy letterLe :=
  ⟨by intro a b c; unfold letterLe pyDateLe; omega⟩

/-- `sorted(letters, key=lambda x: parse_date(x['Submission Date']))`
(`app.py` line 37); Python's `sorted` is stable, as is insertion sort. -/
def sortLettersByDate (letters : List LetterCopy) : List LetterCopy :=
  List.insertionSort letterLe letters

/-- The blocks added for a single letter (`app.py` lines 40-62): a bold
date line, an empty line, the letter body with the placeholder replaced,
an empty line, and a bold "postcode, state" line. -/
def letterBlocks (mpInfo : MPInfo) (l : LetterCopy) : List Block :=
  [Block.boldPara ("Date: ".toList ++ l.submissionDate),
   Block.emptyPara,
   Block.para (replaceMpNameInLetter l.yourLetter mpInfo.salutation mpInfo.lastName),
   Block.emptyPara,
   Block.boldPara (l.postcode ++ (',' :: ' ' :: []) ++ l.state)]

/-- `create_docx_for_electorate` (`app.py` lines 28-73): sort the letters
by parsed date, then for each letter add its blocks, with a page break
after every letter except the last (`if i < len(sorted_letters) - 1`). -/
def createDocxForElectorate (mpInfo : MPInfo) (letters : List LetterCopy) :
    List Block :=
  let sorted := sortLettersByDate letters
  (sorted.enum.map (fun p =>
    letterBlocks mpInfo p.2 ++
      (if p.1 < sorted.length - 1 then [Block.pageBreak] else []))).flatten

/-! ### `process_files` (`app.py` lines 75-138) -/

/-- `process_files`: build `mp_dict`, group the letters into buckets, then
for each MP key in `mp_dict` order that has a bucket, emit the rendered
document (`app.py` lines 129-136). -/
def processFiles (mps : List MPRow) (letters : List LetterRow) :
    List (Str × List Block) :=
  let mpDict := buildMpDict mps
  let buckets := electorateLetters mpDict letters
  mpDict.filterMap (fun kv =>
    match alookup buckets kv.1 with
    | some ls => some (kv.1, createDocxForElectorate kv.2 ls)
    | none => none)

/-! ### ZIP archive naming (`create_zip_file`, `app.py` lines 140-158) -/

/-- The characters removed by `re.sub` in the filename components. -/
def forbiddenFilenameChars : Str := ['<', '>', ':', '\"', '/', '\\', '|', '?', '*']

/-- `re.sub` with that character class and an empty replacement: remove
every occurrence of each forbidden character. -/
def sanitizeComponent (s : Str) : Str :=
  s.filter (fun c => decide (c ∉ forbiddenFilenameChars))

/-- Default used by `mp_dict.get(mp_key, {})` / `.get(field, 'Unknown')`. -/
def unknownStr : Str := "Unknown".toList

/-- The archive entry name for a key (`app.py` lines 147-154):
`f"{clean_electorate}, {clean_fullname}.docx"`. -/
def zipEntryName (mpDict : List (Str × MPInfo)) (k : Str) : Str :=
  let electorate := match alookup mpDict k with
    | some info => info.electorate
    | none => unknownStr
  let fullname := match alookup mpDict k with
    | some info => info.fullname
    | none => unknownStr
  sanitizeComponent electorate ++ (',' :: ' ' :: []) ++
    sanitizeComponent fullname ++ ".docx".toList

/-- `create_zip_file` (`app.py` lines 140-158): one archive entry per
generated document, named by `zipEntryName`. -/
def createZipFile (docxFiles : List (Str × List Block))
    (mpDict : List (Str × MPInfo)) : List (Str × List Block) :=
  docxFiles.map (fun kv => (zipEntryName mpDict kv.1, kv.2))

/-! ### Schema validation (`main`, `app.py` lines 193-206) -/

/-- `required_mp_columns` (`app.py` line 194). -/
def requiredMpColumns : List Str :=
  ["Salutation".toList, "First name".toList, "Last name".toList,
   "State/Electorate".toList]

/-- `required_letter_columns` (`app.py` line 195). -/
def requiredLetterColumns : List Str :=
  ["ELECTORATE".toList, "Submission Date".toList, "Your letter".toList,
   "POSTCODE".toList, "STATE".toList]

/-- Outcome of the column validation in `main`: an error naming the missing
MP columns, an error naming the missing letter columns, or the processed
result. -/
inductive LoadOutcome where
  | mpSchemaError (missing : List Str)
  | letterSchemaError (missing : List Str)
  | ok (results : List (Str × List Block))
deriving DecidableEq

/-- `main`'s validation and processing (`app.py` lines 197-226): compute
both missing-column lists; if MP columns are missing report those and
return; else if letter columns are missing report those and return; else
process the files. -/
def validateAndProcess (mpCols letterCols : List Str) (mps : List MPRow)
    (letters : List LetterRow) : LoadOutcome :=
  let missingMp := requiredMpColumns.filter (fun c => decide (c ∉ mpCols))
  let missingLetter := requiredLetterColumns.filter (fun c => decide (c ∉ letterCols))
  if missingMp ≠ [] then LoadOutcome.mpSchemaError missingMp
  else if missingLetter ≠ [] then LoadOutcome.letterSchemaError missingLetter
  else LoadOutcome.ok (processFiles mps letters)

/-- The columns named in the reported error (none on success). -/
def reportedMissing : LoadOutcome → List Str
  | LoadOutcome.mpSchemaError m => m
  | LoadOutcome.letterSchemaError m => m
  | LoadOutcome.ok _ => []

/-! ### Concrete sample rows for witnesses and counterexamples -/

/-- An MP row for the electorate `"Bruce"`. -/
def bruceRow : MPRow :=
  ⟨"Mr".toList, "Julian".toList, "Hill".toList, "Bruce".toList⟩

/-- An MP row for the electorate `"Hotham"`. -/
def hothamRow : MPRow :=
  ⟨"Ms".toList, "Clare".toList, "ONeil".toList, "Hotham".toList⟩

/-- A letter row whose electorate field holds two comma-separated names. -/
def bruceHothamLetter : LetterRow :=
  ⟨"Bruce, Hotham".toList, "Jun 28, 2025".toList, "body".toList,
   "3000".toList, "VIC".toList⟩

/-- A senator row registered under the state name `"NSW"`. -/
def nswRow : MPRow :=
  ⟨"Senator".toList, "Jennifer".toList, "McAllister".toList, "NSW".toList⟩

/-- A letter row whose `ELECTORATE` field equals its `STATE` field. -/
def nswLetter : LetterRow :=
  ⟨"NSW".toList, "Jun 28, 2025".toList, "body".toList,
   "2154".toList, "NSW".toList⟩

/-- An MP row for the electorate `"Bean"`. -/
def beanRow : MPRow :=
  ⟨"Mr".toList, "David".toList, "Smith".toList, "Bean".toList⟩

/-- A letter row for the electorate `"Aston"` in state `"QLD"`. -/
def astonLetter : LetterRow :=
  ⟨"Aston".toList, "Jun 28, 2025".toList, "body".toList,
   "4212".toList, "QLD".toList⟩

/-- An MP row whose electorate and surname contain forbidden filename
characters. -/
def ryanRow : MPRow :=
  ⟨"Mr".toList, "James".toList, "O\"Brien".toList, "Ryan/Test".toList⟩

/-! ### Lemmas: insertion-ordered dictionaries -/

theorem alookup_cons {β : Type} (kv : Str × β) (rest : List (Str × β)) (k : Str) :
    alookup (kv :: rest) k = if kv.1 = k then some kv.2 else alookup rest k := rfl

theorem alookup_ainsert {β : Type} (d : List (Str × β)) (k k' : Str) (v : β) :
    alookup (ainsert d k v) k' = if k = k' then some v else alookup d k' := by
  induction d with
  | nil => simp [ainsert, alookup]
  | cons kv rest ih =>
    by_cases h1 : kv.1 = k
    · simp only [ainsert, if_pos h1, alookup_cons]
      by_cases h2 : k = k'
      · simp [h2]
      · simp only [if_neg h2]
        have : ¬ kv.1 = k' := by rw [h1]; exact h2
        simp [this]
    · simp only [ainsert, if_neg h1, alookup_cons, ih]
      by_cases h2 : kv.1 = k'
      · have : ¬ k = k' := by intro h; exact h1 (h2.trans h.symm)
        simp [h2, this]
      · simp [h2]

theorem keys_ainsert {β : Type} (d : List (Str × β)) (k : Str) (v : β) :
    (ainsert d k v).map Prod.fst =
      if k ∈ d.map Prod.fst then d.map Prod.fst else d.map Prod.fst ++ [k] := by
  induction d with
  | nil => simp [ainsert]
  | cons kv rest ih =>
    by_cases h1 : kv.1 = k
    · simp only [ainsert, if_pos h1, List.map_cons]
      have hm : k ∈ kv.1 :: rest.map Prod.fst := by
        rw [h1]; exact List.mem_cons_self _ _
      rw [if_pos hm, h1]
    · have h1' : ¬ k = kv.1 := fun h => h1 h.symm
      simp only [ainsert, if_neg h1, List.map_cons, ih, List.mem_cons]
      by_cases h2 : k ∈ rest.map Prod.fst
      · simp [h2, h1']
      · simp [h2, h1']

theorem nodup_keys_ainsert {β : Type} (d : List (Str × β)) (k : Str) (v : β)
    (h : (d.map Prod.fst).Nodup) : ((ainsert d k v).map Prod.fst).Nodup := by
  rw [keys_ainsert]
  by_cases h2 : k ∈ d.map Prod.fst
  · simpa [h2]
  · simp [h2, List.nodup_append, h]

theorem nodup_keys_foldl_ainsert :
    ∀ (mps : List MPRow) (d : List (Str × MPInfo)),
      (d.map Prod.fst).Nodup →
      ((mps.foldl (fun d mp => ainsert d (mpKeyOf mp) (mpInfoOf mp)) d).map
        Prod.fst).Nodup
  | [], _, h => h
  | mp :: mps, d, h =>
    nodup_keys_foldl_ainsert mps _ (nodup_keys_ainsert d (mpKeyOf mp) (mpInfoOf mp) h)

theorem nodup_keys_buildMpDict (mps : List MPRow) :
    ((buildMpDict mps).map Prod.fst).Nodup :=
  nodup_keys_foldl_ainsert mps [] List.nodup_nil

theorem mem_of_alookup_eq_some {β : Type} {d : List (Str × β)} {k : Str} {v : β}
    (h : alookup d k = some v) : (k, v) ∈ d := by
  induction d with
  | nil => simp [alookup] at h
  | cons kv rest ih =>
    rw [alookup_cons] at h
    by_cases h1 : kv.1 = k
    · rw [if_pos h1] at h
      injection h with hv
      obtain ⟨k0, v0⟩ := kv
      simp only at h1 hv
      cases h1
      cases hv
      exact List.mem_cons_self _ _
    · rw [if_neg h1] at h
      exact List.mem_cons_of_mem _ (ih h)

theorem alookup_eq_some_of_mem {β : Type} {d : List (Str × β)} {k : Str} {v : β}
    (hd : (d.map Prod.fst).Nodup) (h : (k, v) ∈ d) : alookup d k = some v := by
  induction d with
  | nil => simp at h
  | cons kv rest ih =>
    rw [List.map_cons, List.nodup_cons] at hd
    rcases List.mem_cons.mp h with h | h
    · rw [← h, alookup_cons]
      simp
    · have hk : kv.1 ≠ k := by
        intro he
        exact hd.1 (he ▸ (List.mem_map.mpr ⟨(k, v), h, rfl⟩))
      rw [alookup_cons, if_neg hk]
      exact ih hd.2 h

theorem mem_iff_alookup {β : Type} {d : List (Str × β)} {k : Str} {v : β}
    (hd : (d.map Prod.fst).Nodup) : (k, v) ∈ d ↔ alookup d k = some v :=
  ⟨alookup_eq_some_of_mem hd, mem_of_alookup_eq_some⟩

theorem alookup_foldl_ainsert (k : Str) :
    ∀ (mps : List MPRow) (d : List (Str × MPInfo)),
      alookup (mps.foldl (fun d mp => ainsert d (mpKeyOf mp) (mpInfoOf mp)) d) k =
        ((mps.reverse.find? (fun mp => decide (mpKeyOf mp = k))).map mpInfoOf).or
          (alookup d k)
  | [], d => by simp
  | mp :: mps, d => by
    rw [List.foldl_cons, alookup_foldl_ainsert k mps, List.reverse_cons,
      List.find?_append, alookup_ainsert]
    cases hF : mps.reverse.find? (fun mp => decide (mpKeyOf mp = k)) with
    | some m => simp
    | none =>
      by_cases hk : mpKeyOf mp = k
      · simp [List.find?, hk]
      · simp [List.find?, hk]

/-- Lookup in `mp_dict` finds the `MPInfo` of the last row with that key. -/
theorem alookup_buildMpDict (mps : List MPRow) (k : Str) :
    alookup (buildMpDict mps) k =
      (mps.reverse.find? (fun mp => decide (mpKeyOf mp = k))).map mpInfoOf := by
  rw [buildMpDict, alookup_foldl_ainsert]
  cases mps.reverse.find? (fun mp => decide (mpKeyOf mp = k)) <;> simp [alookup]

/-! ### Lemmas: buckets and the grouping fold -/

theorem alookup_addLetter (b : Buckets) (k k' : Str) (v : LetterCopy) :
    alookup (addLetter b k v) k' =
      if k = k' then some (bget b k ++ [v]) else alookup b k' := by
  induction b with
  | nil => by_cases h : k = k' <;> simp [addLetter, alookup_cons, bget, alookup, h]
  | cons kv rest ih =>
    by_cases h1 : kv.1 = k
    · by_cases h2 : k = k'
      · subst h2
        simp [addLetter, h1, alookup_cons, bget]
      · have h3 : ¬ kv.1 = k' := fun h => h2 (h1.symm.trans h)
        simp [addLetter, h1, alookup_cons, bget, h2, h3]
    · have he : addLetter (kv :: rest) k v = kv :: addLetter rest k v := by
        rw [addLetter, if_neg h1]
      rw [he, alookup_cons]
      by_cases h2 : kv.1 = k'
      · have hk : ¬ k = k' := fun h => h1 (h2.trans h.symm)
        rw [if_pos h2, if_neg hk, alookup_cons, if_pos h2]
      · rw [if_neg h2, ih]
        by_cases h3 : k = k'
        · rw [if_pos h3, if_pos h3, bget, bget, alookup_cons, if_neg h1]
        · rw [if_neg h3, if_neg h3, alookup_cons, if_neg h2]

theorem bget_addLetter (b : Buckets) (k k' : Str) (v : LetterCopy) :
    bget (addLetter b k v) k' = bget b k' ++ if k = k' then [v] else [] := by
  rw [bget, alookup_addLetter]
  by_cases h : k = k'
  · simp [h, bget]
  · simp [h, bget]

theorem buckets_nonempty_addLetter {b : Buckets} (h : ∀ kv ∈ b, kv.2 ≠ [])
    (k : Str) (v : LetterCopy) : ∀ kv ∈ addLetter b k v, kv.2 ≠ [] := by
  induction b with
  | nil => simp [addLetter]
  | cons kv0 rest ih =>
    intro kv hkv
    by_cases h1 : kv0.1 = k
    · rw [addLetter, if_pos h1] at hkv
      rcases List.mem_cons.mp hkv with h2 | h2
      · rw [h2]; simp
      · exact h kv (List.mem_cons_of_mem _ h2)
    · rw [addLetter, if_neg h1] at hkv
      rcases List.mem_cons.mp hkv with h2 | h2
      · exact h2 ▸ h kv0 (List.mem_cons_self _ _)
      · exact ih (fun kv' hkv' => h kv' (List.mem_cons_of_mem _ hkv')) kv h2

theorem bget_foldl_addLetter (v : LetterCopy) (k' : Str) :
    ∀ (ks : List Str) (b : Buckets),
      bget (ks.foldl (fun b k => addLetter b k v) b) k' =
        bget b k' ++ List.replicate (ks.count k') v
  | [], b => by simp
  | k :: ks, b => by
    rw [List.foldl_cons, bget_foldl_addLetter v k' ks, bget_addLetter,
      List.count_cons]
    by_cases h : k = k'
    · simp [h, List.replicate_succ]
    · simp [h]

theorem bget_foldl_tokens (mpDict : List (Str × MPInfo)) (l : LetterRow) (k' : Str) :
    ∀ (toks : List Str) (b : Buckets),
      bget (toks.foldl (fun b tok => (matchingMps mpDict tok).foldl
          (fun b k => addLetter b k (copyOf l)) b) b) k' =
        bget b k' ++ List.replicate
          ((toks.map (fun t => (matchingMps mpDict t).count k')).sum) (copyOf l)
  | [], b => by simp
  | t :: toks, b => by
    rw [List.foldl_cons, bget_foldl_tokens mpDict l k' toks,
      bget_foldl_addLetter, List.map_cons, List.sum_cons, List.replicate_add]
    simp [List.append_assoc]

theorem bget_foldl_letters (mpDict : List (Str × MPInfo)) (k' : Str) :
    ∀ (letters : List LetterRow) (b : Buckets),
      bget (letters.foldl (fun b l =>
          (tokensOf l).foldl (fun b tok => (matchingMps mpDict tok).foldl
            (fun b k => addLetter b k (copyOf l)) b) b) b) k' =
        bget b k' ++ (letters.map (fun l => List.replicate
          (((tokensOf l).map (fun t => (matchingMps mpDict t).count k')).sum)
          (copyOf l))).flatten
  | [], b => by simp
  | l :: letters, b => by
    rw [List.foldl_cons, bget_foldl_letters mpDict k' letters,
      bget_foldl_tokens, List.map_cons, List.flatten_cons]
    simp [List.append_assoc]

theorem bget_electorateLetters (mpDict : List (Str × MPInfo))
    (letters : List LetterRow) (k' : Str) :
    bget (electorateLetters mpDict letters) k' =
      (letters.map (fun l => List.replicate
        (((tokensOf l).map (fun t => (matchingMps mpDict t).count k')).sum)
        (copyOf l))).flatten := by
  rw [electorateLetters, bget_foldl_letters]
  simp [bget, alookup]

theorem buckets_nonempty_electorateLetters (mpDict : List (Str × MPInfo))
    (letters : List LetterRow) : ∀ kv ∈ electorateLetters mpDict letters, kv.2 ≠ [] := by
  rw [electorateLetters]
  generalize hb : ([] : Buckets) = b
  have hne : ∀ kv ∈ b, kv.2 ≠ [] := by rw [← hb]; simp
  clear hb
  induction letters generalizing b with
  | nil => exact hne
  | cons l letters ihl =>
    rw [List.foldl_cons]
    apply ihl
    generalize (tokensOf l) = toks
    induction toks generalizing b with
    | nil => exact hne
    | cons t toks iht =>
      rw [List.foldl_cons]
      apply iht
      generalize (matchingMps mpDict t) = ks
      induction ks generalizing b with
      | nil => exact hne
      | cons k ks ihk =>
        rw [List.foldl_cons]
        exact ihk _ (buckets_nonempty_addLetter hne k (copyOf l))

theorem keys_addLetter (b : Buckets) (k : Str) (v : LetterCopy) :
    (addLetter b k v).map Prod.fst =
      if k ∈ b.map Prod.fst then b.map Prod.fst else b.map Prod.fst ++ [k] := by
  induction b with
  | nil => simp [addLetter]
  | cons kv rest ih =>
    by_cases h1 : kv.1 = k
    · simp only [addLetter, if_pos h1, List.map_cons]
      have hm : k ∈ kv.1 :: rest.map Prod.fst := by
        rw [h1]; exact List.mem_cons_self _ _
      rw [if_pos hm]
    · have h1' : ¬ k = kv.1 := fun h => h1 h.symm
      simp only [addLetter, if_neg h1, List.map_cons, ih, List.mem_cons]
      by_cases h2 : k ∈ rest.map Prod.fst
      · simp [h2, h1']
      · simp [h2, h1']

theorem nodup_keys_addLetter {b : Buckets} (h : (b.map Prod.fst).Nodup)
    (k : Str) (v : LetterCopy) : ((addLetter b k v).map Prod.fst).Nodup := by
  rw [keys_addLetter]
  by_cases h2 : k ∈ b.map Prod.fst
  · simpa [h2]
  · simp [h2, List.nodup_append, h]

theorem nodup_keys_electorateLetters (mpDict : List (Str × MPInfo))
    (letters : List LetterRow) :
    ((electorateLetters mpDict letters).map Prod.fst).Nodup := by
  rw [electorateLetters]
  generalize hb : ([] : Buckets) = b
  have hnd : (b.map Prod.fst).Nodup := by rw [← hb]; simp
  clear hb
  induction letters generalizing b with
  | nil => exact hnd
  | cons l letters ihl =>
    rw [List.foldl_cons]
    apply ihl
    generalize (tokensOf l) = toks
    induction toks generalizing b with
    | nil => exact hnd
    | cons t toks iht =>
      rw [List.foldl_cons]
      apply iht
      generalize (matchingMps mpDict t) = ks
      induction ks generalizing b with
      | nil => exact hnd
      | cons k ks ihk =>
        rw [List.foldl_cons]
        exact ihk _ (nodup_keys_addLetter hnd k (copyOf l))

/-! ### Lemmas: counting matches -/

theorem count_matchingMps_of_notMem {mpDict : List (Str × MPInfo)} {k' : Str}
    (h : k' ∉ mpDict.map Prod.fst) (t : Str) : (matchingMps mpDict t).count k' = 0 := by
  rw [List.count_eq_zero]
  intro hmem
  apply h
  rcases List.mem_map.mp hmem with ⟨kv, hkv, rfl⟩
  exact List.mem_map.mpr ⟨kv, (List.mem_filter.mp hkv).1, rfl⟩

theorem matchingMps_cons (kv : Str × MPInfo) (rest : List (Str × MPInfo)) (t : Str) :
    matchingMps (kv :: rest) t =
      if kv.2.electorate = t then kv.1 :: matchingMps rest t
      else matchingMps rest t := by
  rw [matchingMps, List.filter_cons]
  by_cases h : kv.2.electorate = t
  · rw [if_pos (decide_eq_true h), if_pos h, List.map_cons]
    rfl
  · rw [if_neg (by simp [h]), if_neg h]
    rfl

theorem count_matchingMps {mpDict : List (Str × MPInfo)} {k' : Str} {info : MPInfo}
    (hnd : (mpDict.map Prod.fst).Nodup) (hlk : alookup mpDict k' = some info)
    (t : Str) :
    (matchingMps mpDict t).count k' = if info.electorate = t then 1 else 0 := by
  induction mpDict with
  | nil => simp [alookup] at hlk
  | cons kv rest ih =>
    rw [List.map_cons, List.nodup_cons] at hnd
    rw [alookup_cons] at hlk
    rw [matchingMps_cons]
    by_cases h1 : kv.1 = k'
    · rw [if_pos h1] at hlk
      injection hlk with hinfo
      have hz : (matchingMps rest t).count k' = 0 :=
        count_matchingMps_of_notMem (h1 ▸ hnd.1) t
      by_cases h2 : kv.2.electorate = t
      · rw [if_pos h2, List.count_cons, hz, ← hinfo, if_pos h2]
        simp [h1]
      · rw [if_neg h2, hz, ← hinfo, if_neg h2]
    · rw [if_neg h1] at hlk
      have ihr := ih hnd.2 hlk
      by_cases h2 : kv.2.electorate = t
      · rw [if_pos h2, List.count_cons, ihr]
        simp [h1]
      · rw [if_neg h2, ihr]

theorem sum_indicator_eq_count (e : Str) :
    ∀ (toks : List Str),
      (toks.map (fun t => if e = t then 1 else 0)).sum = toks.count e
  | [] => by simp
  | t :: toks => by
    rw [List.map_cons, List.sum_cons, sum_indicator_eq_count e toks,
      List.count_cons]
    by_cases h : t = e
    · simp [h]
      omega
    · have h' : ¬ e = t := fun hh => h hh.symm
      simp [h, h']

theorem bget_electorateLetters_of_alookup {mps : List MPRow}
    {letters : List LetterRow} {k' : Str} {info : MPInfo}
    (hlk : alookup (buildMpDict mps) k' = some info) :
    bget (electorateLetters (buildMpDict mps) letters) k' =
      (letters.map (fun l => List.replicate ((tokensOf l).count info.electorate)
        (copyOf l))).flatten := by
  rw [bget_electorateLetters]
  congr 1
  apply List.map_congr_left
  intro l _
  congr 1
  rw [show ((tokensOf l).map (fun t => (matchingMps (buildMpDict mps) t).count k'))
      = ((tokensOf l).map (fun t => if info.electorate = t then 1 else 0)) from
    List.map_congr_left (fun t _ =>
      count_matchingMps (nodup_keys_buildMpDict mps) hlk t)]
  exact sum_indicator_eq_count info.electorate (tokensOf l)

/-! ### Lemmas: total pair counts -/

theorem totalPairs_addLetter (b : Buckets) (k : Str) (v : LetterCopy) :
    totalPairs (addLetter b k v) = totalPairs b + 1 := by
  induction b with
  | nil => simp [addLetter, totalPairs]
  | cons kv rest ih =>
    by_cases h1 : kv.1 = k
    · simp [addLetter, h1, totalPairs, List.length_append]
      omega
    · simp only [addLetter, if_neg h1, totalPairs, List.map_cons, List.sum_cons]
      simp only [totalPairs] at ih
      omega

theorem totalPairs_foldl_addLetter (v : LetterCopy) :
    ∀ (ks : List Str) (b : Buckets),
      totalPairs (ks.foldl (fun b k => addLetter b k v) b) = totalPairs b + ks.length
  | [], b => by simp
  | k :: ks, b => by
    rw [List.foldl_cons, totalPairs_foldl_addLetter v ks, totalPairs_addLetter,
      List.length_cons]
    omega

theorem totalPairs_foldl_tokens (mpDict : List (Str × MPInfo)) (l : LetterRow) :
    ∀ (toks : List Str) (b : Buckets),
      totalPairs (toks.foldl (fun b tok => (matchingMps mpDict tok).foldl
          (fun b k => addLetter b k (copyOf l)) b) b) =
        totalPairs b + (toks.map (fun t => (matchingMps mpDict t).length)).sum
  | [], b => by simp
  | t :: toks, b => by
    rw [List.foldl_cons, totalPairs_foldl_tokens mpDict l toks,
      totalPairs_foldl_addLetter, List.map_cons, List.sum_cons]
    omega

theorem totalPairs_foldl_letters (mpDict : List (Str × MPInfo)) :
    ∀ (letters : List LetterRow) (b : Buckets),
      totalPairs (letters.foldl (fun b l =>
          (tokensOf l).foldl (fun b tok => (matchingMps mpDict tok).foldl
            (fun b k => addLetter b k (copyOf l)) b) b) b) =
        totalPairs b + (letters.map (fun l =>
          ((tokensOf l).map (fun t => (matchingMps mpDict t).length)).sum)).sum
  | [], b => by simp
  | l :: letters, b => by
    rw [List.foldl_cons, totalPairs_foldl_letters mpDict letters,
      totalPairs_foldl_tokens, List.map_cons, List.sum_cons]
    omega

theorem totalPairs_electorateLetters (mpDict : List (Str × MPInfo))
    (letters : List LetterRow) :
    totalPairs (electorateLetters mpDict letters) =
      (letters.map (fun l =>
        ((tokensOf l).map (fun t => (matchingMps mpDict t).length)).sum)).sum := by
  rw [electorateLetters, totalPairs_foldl_letters]
  simp [totalPairs]

theorem sum_map_add_nat {α : Type} (f g : α → Nat) :
    ∀ (l : List α), (l.map (fun x => f x + g x)).sum = (l.map f).sum + (l.map g).sum
  | [] => by simp
  | x :: l => by
    simp only [List.map_cons, List.sum_cons, sum_map_add_nat f g l]
    omega

theorem length_matchingMps_eq_sum (t : Str) :
    ∀ (d : List (Str × MPInfo)),
      (matchingMps d t).length =
        (d.map (fun kv => if kv.2.electorate = t then 1 else 0)).sum
  | [] => by simp [matchingMps]
  | kv :: d => by
    rw [matchingMps_cons, List.map_cons, List.sum_cons]
    by_cases h : kv.2.electorate = t
    · rw [if_pos h, if_pos h, List.length_cons, length_matchingMps_eq_sum t d]
      omega
    · rw [if_neg h, if_neg h, length_matchingMps_eq_sum t d]
      omega

theorem sum_matching_swap (d : List (Str × MPInfo)) :
    ∀ (toks : List Str),
      (toks.map (fun t => (matchingMps d t).length)).sum =
        (d.map (fun kv => toks.count kv.2.electorate)).sum
  | [] => by
    induction d with
    | nil => simp
    | cons kv rest ih => simp
  | t :: toks => by
    rw [List.map_cons, List.sum_cons, sum_matching_swap d toks,
      length_matchingMps_eq_sum t d, ← sum_map_add_nat]
    congr 1
    apply List.map_congr_left
    intro kv _
    rw [List.count_cons]
    by_cases h : kv.2.electorate = t
    · simp [h]
      omega
    · have h' : ¬ t = kv.2.electorate := fun hh => h hh.symm
      simp [h, h']

theorem count_eq_one_of_nodup_mem :
    ∀ {toks : List Str}, toks.Nodup → ∀ {e : Str}, e ∈ toks → toks.count e = 1
  | [], _, _, hm => absurd hm (List.not_mem_nil _)
  | t :: rest, h, e, hm => by
    rw [List.nodup_cons] at h
    rw [List.count_cons]
    rcases List.mem_cons.mp hm with he | he
    · subst he
      rw [List.count_eq_zero.mpr h.1]
      simp
    · have hne : ¬ t = e := fun hh => h.1 (hh.symm ▸ he)
      rw [count_eq_one_of_nodup_mem h.2 he]
      simp [hne]

theorem count_eq_indicator_of_nodup {toks : List Str} (h : toks.Nodup) (e : Str) :
    toks.count e = if e ∈ toks then 1 else 0 := by
  by_cases hm : e ∈ toks
  · rw [count_eq_one_of_nodup_mem h hm, if_pos hm]
  · rw [List.count_eq_zero.mpr hm, if_neg hm]

theorem replicate_count_of_nodup {toks : List Str} (h : toks.Nodup) (e : Str)
    (v : LetterCopy) :
    List.replicate (toks.count e) v = if e ∈ toks then [v] else [] := by
  by_cases hm : e ∈ toks
  · rw [count_eq_one_of_nodup_mem h hm, if_pos hm]
    rfl
  · rw [List.count_eq_zero.mpr hm, if_neg hm]
    rfl

theorem sum_count_eq_length_filter (d : List (Str × MPInfo)) {toks : List Str}
    (h : toks.Nodup) :
    (d.map (fun kv => toks.count kv.2.electorate)).sum =
      (d.filter (fun kv => decide (kv.2.electorate ∈ toks))).length := by
  induction d with
  | nil => simp
  | cons kv rest ih =>
    rw [List.map_cons, List.sum_cons, ih, List.filter_cons]
    by_cases hm : kv.2.electorate ∈ toks
    · rw [count_eq_indicator_of_nodup h, if_pos hm,
        if_pos (decide_eq_true hm), List.length_cons]
      omega
    · rw [count_eq_indicator_of_nodup h, if_neg hm, if_neg (by simp [hm])]
      omega

theorem flatten_ite_eq_filter_map (letters : List LetterRow) (e : Str) :
    (letters.map (fun l => if e ∈ tokensOf l then [copyOf l] else [])).flatten =
      (letters.filter (fun l => decide (e ∈ tokensOf l))).map copyOf := by
  induction letters with
  | nil => rfl
  | cons l rest ih =>
    rw [List.map_cons, List.flatten_cons, List.filter_cons]
    by_cases h : e ∈ tokensOf l
    · rw [if_pos h, if_pos (decide_eq_true h), List.map_cons, ih]
      rfl
    · rw [if_neg h, if_neg (by simp [h]), ih]
      rfl

/-! ### Lemmas: the `process_files` output -/

theorem processFiles_eq (mps : List MPRow) (letters : List LetterRow) :
    processFiles mps letters = (buildMpDict mps).filterMap (fun kv =>
      match alookup (electorateLetters (buildMpDict mps) letters) kv.1 with
      | some ls => some (kv.1, createDocxForElectorate kv.2 ls)
      | none => none) := rfl

theorem alookup_electorateLetters_eq_none {mpDict : List (Str × MPInfo)}
    {letters : List LetterRow} {k : Str}
    (h : bget (electorateLetters mpDict letters) k = []) :
    alookup (electorateLetters mpDict letters) k = none := by
  cases hl : alookup (electorateLetters mpDict letters) k with
  | none => rfl
  | some ls =>
    have hm := mem_of_alookup_eq_some hl
    have hne := buckets_nonempty_electorateLetters mpDict letters _ hm
    rw [bget, hl] at h
    simp only [Option.getD_some] at h
    exact absurd h hne

theorem notMem_keys_processFiles {mps : List MPRow} {letters : List LetterRow}
    {k : Str}
    (hb : alookup (electorateLetters (buildMpDict mps) letters) k = none) :
    k ∉ (processFiles mps letters).map Prod.fst := by
  rw [processFiles_eq]
  intro hm
  rcases List.mem_map.mp hm with ⟨pair, hp, hfst⟩
  rcases List.mem_filterMap.mp hp with ⟨kv, _, hfk⟩
  cases hbk : alookup (electorateLetters (buildMpDict mps) letters) kv.1 with
  | none =>
    rw [hbk] at hfk
    exact Option.noConfusion hfk
  | some ls =>
    rw [hbk] at hfk
    simp only [Option.some.injEq] at hfk
    rw [← hfk] at hfst
    simp only at hfst
    rw [← hfst] at hb
    rw [hb] at hbk
    exact Option.noConfusion hbk

theorem keys_processFiles_sublist (mps : List MPRow) (letters : List LetterRow) :
    ((processFiles mps letters).map Prod.fst).Sublist
      ((buildMpDict mps).map Prod.fst) := by
  rw [processFiles_eq]
  generalize electorateLetters (buildMpDict mps) letters = buckets
  induction buildMpDict mps with
  | nil => simp
  | cons kv rest ih =>
    rw [List.filterMap_cons]
    cases alookup buckets kv.1 with
    | none =>
      simp only [List.map_cons]
      exact ih.trans (List.sublist_cons_self _ _)
    | some ls =>
      simp only [List.map_cons]
      exact ih.cons₂ _

/-! ### Lemmas: `strip` and `splitChar` -/

theorem dropWhile_idem (p : Char → Bool) :
    ∀ (l : List Char), (l.dropWhile p).dropWhile p = l.dropWhile p
  | [] => rfl
  | c :: cs => by
    by_cases h : p c = true
    · rw [List.dropWhile_cons_of_pos h, dropWhile_idem p cs]
    · rw [List.dropWhile_cons_of_neg h, List.dropWhile_cons_of_neg h]

theorem head_dropWhile_false (p : Char → Bool) :
    ∀ (l : List Char) {c : Char} {cs : List Char},
      l.dropWhile p = c :: cs → p c = false
  | [], _, _, h => by simp [List.dropWhile] at h
  | a :: l, c, cs, h => by
    by_cases ha : p a = true
    · rw [List.dropWhile_cons_of_pos ha] at h
      exact head_dropWhile_false p l h
    · rw [List.dropWhile_cons_of_neg ha] at h
      injection h with h1 _
      subst h1
      simpa using ha

theorem dropWhile_strip_core (p : Char → Bool) (l : List Char) :
    ((l.dropWhile p).reverse.dropWhile p).reverse.dropWhile p =
      ((l.dropWhile p).reverse.dropWhile p).reverse := by
  cases hY : ((l.dropWhile p).reverse.dropWhile p).reverse with
  | nil => simp
  | cons c cs =>
    have hYne : (l.dropWhile p).reverse.dropWhile p ≠ [] := by
      intro hnil
      rw [hnil] at hY
      exact List.noConfusion hY
    have hlast : ((l.dropWhile p).reverse.dropWhile p).getLast? = some c := by
      have : (l.dropWhile p).reverse.dropWhile p = (c :: cs).reverse := by
        rw [← hY, List.reverse_reverse]
      rw [this, List.reverse_cons, List.getLast?_concat]
    have hsuf := List.dropWhile_suffix (l := (l.dropWhile p).reverse) p
    rcases hsuf with ⟨t, ht⟩
    have hlast2 : (l.dropWhile p).reverse.getLast? = some c := by
      rw [← ht, List.getLast?_append_of_ne_nil _ hYne, hlast]
    rw [List.getLast?_reverse] at hlast2
    have hpc : p c = false := by
      cases hA : l.dropWhile p with
      | nil => rw [hA] at hlast2; exact Option.noConfusion hlast2
      | cons a as =>
        rw [hA] at hlast2
        simp only [List.head?_cons, Option.some.injEq] at hlast2
        subst hlast2
        exact head_dropWhile_false p l hA
    exact List.dropWhile_cons_of_neg (by simp [hpc])

theorem strip_strip (s : Str) : strip (strip s) = strip s := by
  show (((strip s).dropWhile pyIsSpace).reverse.dropWhile pyIsSpace).reverse = strip s
  rw [show (strip s).dropWhile pyIsSpace = strip s from dropWhile_strip_core pyIsSpace s]
  rw [show (strip s).reverse = (s.dropWhile pyIsSpace).reverse.dropWhile pyIsSpace from
    by rw [strip, List.reverse_reverse]]
  rw [dropWhile_idem, strip]

theorem strip_eq_nil_of_all {l : Str} (h : ∀ c ∈ l, pyIsSpace c = true) :
    strip l = [] := by
  rw [strip, List.dropWhile_eq_nil_iff.mpr h]
  simp

theorem splitChar_all {p : Char → Bool} (sep : Char) :
    ∀ (l : Str), (∀ c ∈ l, p c = true) →
      ∀ s ∈ splitChar sep l, ∀ c ∈ s, p c = true
  | [], _ => by
    intro s hs x hx
    simp only [splitChar, List.mem_singleton] at hs
    subst hs
    simp at hx
  | c :: cs, h => by
    have hc : p c = true := h c (List.mem_cons_self _ _)
    have hcs : ∀ x ∈ cs, p x = true := fun x hx => h x (List.mem_cons_of_mem _ hx)
    have ih := splitChar_all sep cs hcs
    intro s hs x hx
    simp only [splitChar] at hs
    by_cases hsep : c = sep
    · rw [if_pos hsep] at hs
      rcases List.mem_cons.mp hs with h1 | h1
      · subst h1; simp at hx
      · exact ih s h1 x hx
    · rw [if_neg hsep] at hs
      rcases List.mem_cons.mp hs with h1 | h1
      · subst h1
        rcases List.mem_cons.mp hx with h2 | h2
        · subst h2; exact hc
        · cases hh : splitChar sep cs with
          | nil =>
            rw [hh] at h2
            simp at h2
          | cons s0 ss =>
            rw [hh] at h2
            simp only [List.headD_cons] at h2
            exact ih s0 (hh ▸ List.mem_cons_self _ _) x h2
      · exact ih s (List.mem_of_mem_tail h1) x hx

/-! ### Lemmas: token extraction -/

theorem filterMap_strip_of_stripped :
    ∀ {l : List Str}, (∀ e ∈ l, strip e = e) →
      l.filterMap (fun e => if strip e = [] then none else some (strip e)) =
        l.filter (fun t => decide (t ≠ []))
  | [], _ => rfl
  | x :: rest, h => by
    have hx : strip x = x := h x (List.mem_cons_self _ _)
    have ih := filterMap_strip_of_stripped
      (fun e he => h e (List.mem_cons_of_mem _ he))
    rw [List.filterMap_cons, List.filter_cons]
    by_cases hxe : x = []
    · rw [hx, if_pos hxe, if_neg (by simp [hxe])]
      exact ih
    · rw [hx, if_neg hxe, if_pos (by simp [hxe])]
      rw [ih]

theorem extractTokens_eq_specTokens (raw st : Str) :
    extractTokens raw st = specTokens raw st := by
  rw [extractTokens, specTokens]
  have hcomm : ((splitChar '\n' raw).map
      (fun part => (splitChar ',' part).map strip)).flatten =
        (((splitChar '\n' raw).map (splitChar ',')).flatten).map strip := by
    rw [List.map_flatten, List.map_map]
    rfl
  rw [hcomm, filterMap_strip_of_stripped]
  intro e he
  rcases List.mem_map.mp he with ⟨x, _, rfl⟩
  exact strip_strip x

theorem extractTokens_of_whitespace {field : Str}
    (h : ∀ c ∈ field, pyIsSpace c = true) (st : Str) :
    extractTokens field st = if strip st = [] then [] else [strip st] := by
  rw [extractTokens]
  have hnil : ((splitChar '\n' field).map
      (fun part => (splitChar ',' part).map strip)).flatten.filterMap
        (fun e => if strip e = [] then none else some (strip e)) = [] := by
    rw [List.filterMap_eq_nil_iff]
    intro e he
    rcases List.mem_flatten.mp he with ⟨piece, hpiece, hepiece⟩
    rcases List.mem_map.mp hpiece with ⟨part, hpart, rfl⟩
    rcases List.mem_map.mp hepiece with ⟨seg, hseg, rfl⟩
    have hpartws : ∀ c ∈ part, pyIsSpace c = true :=
      splitChar_all '\n' field h part hpart
    have hsegws : ∀ c ∈ seg, pyIsSpace c = true :=
      splitChar_all ',' part hpartws seg hseg
    rw [strip_strip, strip_eq_nil_of_all hsegws]
    simp
  rw [hnil]
  by_cases hst : strip st = []
  · rw [if_pos hst, if_pos hst]
  · rw [if_neg hst, if_neg hst]
    rfl

/-! ### Lemmas: placeholder substitution -/

theorem replaceAll_nil (pat repl : Str) : replaceAll pat repl [] = [] := by
  rw [replaceAll]

theorem replaceAll_cons (pat repl : Str) (c : Char) (cs : Str) :
    replaceAll pat repl (c :: cs) =
      if pat.isPrefixOf (c :: cs) then
        repl ++ replaceAll pat repl (cs.drop (pat.length - 1))
      else c :: replaceAll pat repl cs := by
  rw [replaceAll]

theorem replaceAll_no_occ_aux (pat repl : Str) :
    ∀ (n : Nat) (s : Str), s.length ≤ n → ¬ pat <:+: s →
      replaceAll pat repl s = s
  | _, [], _, _ => replaceAll_nil pat repl
  | 0, c :: cs, h, _ => by simp at h
  | n + 1, c :: cs, h, hni => by
    rw [replaceAll_cons]
    rw [if_neg ?hpre]
    case hpre =>
      intro hb
      rcases List.isPrefixOf_iff_prefix.mp hb with ⟨t, ht⟩
      exact hni ⟨[], t, by rw [List.nil_append, ht]⟩
    congr 1
    apply replaceAll_no_occ_aux pat repl n cs (by simpa using h)
    intro hin
    rcases hin with ⟨u, v, huv⟩
    exact hni ⟨c :: u, v, by simp [huv]⟩

/-- A string with no occurrence of the pattern is left unchanged. -/
theorem replaceAll_no_occurrence {pat repl s : Str} (h : ¬ pat <:+: s) :
    replaceAll pat repl s = s :=
  replaceAll_no_occ_aux pat repl s.length s le_rfl h

/-- Replacing at the leftmost occurrence: if `pat` occurs nowhere before the
shown occurrence (no occurrence inside `(a ++ pat).dropLast`), the
replacement rewrites that occurrence and continues on the tail. -/
theorem replaceAll_leftmost (pat repl : Str) (hne : pat ≠ []) :
    ∀ (a b : Str), ¬ pat <:+: (a ++ pat).dropLast →
      replaceAll pat repl (a ++ pat ++ b) = a ++ repl ++ replaceAll pat repl b
  | [], b, _ => by
    rw [List.nil_append, List.nil_append]
    cases pat with
    | nil => exact absurd rfl hne
    | cons p pr =>
      rw [show (p :: pr) ++ b = p :: (pr ++ b) from rfl, replaceAll_cons]
      have hpre : ((p :: pr).isPrefixOf (p :: (pr ++ b))) = true :=
        List.isPrefixOf_iff_prefix.mpr ⟨b, rfl⟩
      rw [if_pos hpre]
      have hd : (pr ++ b).drop ((p :: pr).length - 1) = b := by
        rw [List.length_cons, Nat.add_sub_cancel, List.drop_left]
      rw [hd]
  | x :: a', b, h => by
    have hcons : (x :: a') ++ pat ++ b = x :: (a' ++ pat ++ b) := by rfl
    have hnotpre : ¬ (pat.isPrefixOf (x :: (a' ++ pat ++ b))) = true := by
      intro hb
      have hp : pat <+: (x :: a') ++ pat ++ b := by
        rw [hcons]
        exact List.isPrefixOf_iff_prefix.mp hb
      have hp2 : pat <+: (x :: a') ++ pat := by
        rw [List.prefix_iff_eq_take] at hp ⊢
        rw [List.take_append_of_le_length
          (by rw [List.length_append]; exact Nat.le_add_left _ _)] at hp
        exact hp
      have hp3 : pat <+: ((x :: a') ++ pat).dropLast := by
        rw [List.prefix_iff_eq_take] at hp2 ⊢
        rw [List.dropLast_eq_take, List.take_take]
        have hmin : pat.length ⊓ (((x :: a') ++ pat).length - 1) = pat.length := by
          rw [List.length_append, List.length_cons]
          omega
        rw [hmin]
        exact hp2
      rcases hp3 with ⟨t, ht⟩
      exact h ⟨[], t, by rw [List.nil_append, ht]⟩
    rw [hcons, replaceAll_cons, if_neg hnotpre]
    have hih : ¬ pat <:+: (a' ++ pat).dropLast := by
      intro hin
      rcases hin with ⟨u, v, huv⟩
      have hd : ((x :: a') ++ pat).dropLast = x :: (a' ++ pat).dropLast := by
        rw [show (x :: a') ++ pat = x :: (a' ++ pat) from rfl]
        exact List.dropLast_cons_of_ne_nil (by
          intro hnil
          rcases List.append_eq_nil.mp hnil with ⟨_, hpn⟩
          exact hne hpn)
      exact h ⟨x :: u, v, by rw [hd, ← huv]; rfl⟩
    rw [replaceAll_leftmost pat repl hne a' b hih]
    rfl

/-! ### Lemmas: document rendering -/

theorem intercalate_two_cons {α : Type} (sep x y : List α) (zs : List (List α)) :
    List.intercalate sep (x :: y :: zs) =
      x ++ sep ++ List.intercalate sep (y :: zs) := by
  rw [List.intercalate, List.intercalate, List.intersperse_cons_cons,
    List.flatten_cons, List.flatten_cons, List.append_assoc]

theorem enumFrom_blocks_eq_intercalate {α β : Type} (f : α → List β) (sep : List β) :
    ∀ (l : List α) (k : Nat),
      ((List.enumFrom k l).map (fun p => f p.2 ++
        (if p.1 < k + l.length - 1 then sep else []))).flatten =
        List.intercalate sep (l.map f)
  | [], k => by simp [List.intercalate]
  | [a], k => by
    rw [List.enumFrom_cons]
    simp [List.intercalate, List.intersperse]
  | a :: b :: rest, k => by
    rw [List.enumFrom_cons, List.map_cons, List.flatten_cons]
    have hc : k < k + (a :: b :: rest).length - 1 := by
      rw [List.length_cons, List.length_cons]
      omega
    rw [if_pos hc]
    have hbound : k + (a :: b :: rest).length - 1 =
        (k + 1) + (b :: rest).length - 1 := by
      rw [List.length_cons]
      omega
    rw [hbound, enumFrom_blocks_eq_intercalate f sep (b :: rest) (k + 1)]
    rw [show List.map f (a :: b :: rest) = f a :: f b :: List.map f rest from rfl]
    rw [show List.map f (b :: rest) = f b :: List.map f rest from rfl]
    rw [intercalate_two_cons]

theorem createDocx_eq_intercalate (mpInfo : MPInfo) (letters : List LetterCopy) :
    createDocxForElectorate mpInfo letters =
      List.intercalate [Block.pageBreak]
        ((sortLettersByDate letters).map (letterBlocks mpInfo)) := by
  have h := enumFrom_blocks_eq_intercalate (letterBlocks mpInfo)
    [Block.pageBreak] (sortLettersByDate letters) 0
  rw [createDocxForElectorate]
  rw [show List.enum (sortLettersByDate letters) =
    List.enumFrom 0 (sortLettersByDate letters) from rfl]
  rw [show (0 : Nat) + (sortLettersByDate letters).length - 1 =
    (sortLettersByDate letters).length - 1 from by omega] at h
  exact h

/-! ### Lemmas: bounds of parsed dates -/

theorem matchMonthAux_ge :
    ∀ (names : List Str) (i : Nat) (s : Str) {m : Nat} {r : Str},
      matchMonthAux names i s = some (m, r) → i ≤ m
  | [], _, _, _, _, h => by simp [matchMonthAux] at h
  | n :: ns, i, s, m, r, h => by
    rw [matchMonthAux] at h
    by_cases hp : startsWithCI n s = true
    · rw [if_pos hp] at h
      injection h with h1
      have h2 : i = m := congrArg Prod.fst h1
      omega
    · rw [if_neg hp] at h
      have := matchMonthAux_ge ns (i + 1) s h
      omega

theorem strptimeMDY_month_ge {names : List Str} {s : Str} {m d y : Nat}
    (h : strptimeMDY names s = some (m, d, y)) : 1 ≤ m := by
  rw [strptimeMDY] at h
  cases hmm : matchMonthAux names 1 s with
  | none => rw [hmm] at h; exact Option.noConfusion h
  | some p =>
    obtain ⟨m0, r1⟩ := p
    rw [hmm] at h
    dsimp only at h
    have hge : 1 ≤ m0 := matchMonthAux_ge names 1 s hmm
    cases he : eatSpacesOne r1 with
    | none => rw [he] at h; exact Option.noConfusion h
    | some r2 =>
      rw [he] at h
      dsimp only at h
      cases hd2 : parseDayTwo r2 with
      | some dr =>
        obtain ⟨d0, r3⟩ := dr
        rw [hd2] at h
        dsimp only at h
        cases ht : parseTailYear r3 with
        | some y0 =>
          rw [ht] at h
          dsimp only at h
          injection h with h1
          injection h1 with h2 h3
          omega
        | none =>
          rw [ht] at h
          dsimp only at h
          cases hd1 : parseDayOne r2 with
          | none => rw [hd1] at h; exact Option.noConfusion h
          | some d1r =>
            obtain ⟨d1, r3'⟩ := d1r
            rw [hd1] at h
            dsimp only at h
            cases ht2 : parseTailYear r3' with
            | none => rw [ht2] at h; exact Option.noConfusion h
            | some y1 =>
              rw [ht2] at h
              dsimp only at h
              injection h with h1
              injection h1 with h2 h3
              omega
      | none =>
        rw [hd2] at h
        dsimp only at h
        cases hd1 : parseDayOne r2 with
        | none => rw [hd1] at h; exact Option.noConfusion h
        | some d1r =>
          obtain ⟨d1, r3'⟩ := d1r
          rw [hd1] at h
          dsimp only at h
          cases ht2 : parseTailYear r3' with
          | none => rw [ht2] at h; exact Option.noConfusion h
          | some y1 =>
            rw [ht2] at h
            dsimp only at h
            injection h with h1
            injection h1 with h2 h3
            omega

theorem strptimeDate_bounds {names : List Str} {s : Str} {dt : PyDateTime}
    (h : strptimeDate names s = some dt) :
    1 ≤ dt.year ∧ 1 ≤ dt.month ∧ 1 ≤ dt.day := by
  rw [strptimeDate] at h
  cases hm : strptimeMDY names s with
  | none => rw [hm] at h; exact Option.noConfusion h
  | some mdy =>
    rw [hm] at h
    obtain ⟨m, d, y⟩ := mdy
    dsimp only at h
    unfold mkValidDate at h
    by_cases hc : 1 ≤ y ∧ 1 ≤ d ∧ d ≤ daysInMonth y m
    · rw [if_pos hc] at h
      injection h with hdt
      have hm1 : 1 ≤ m := strptimeMDY_month_ge hm
      rw [← hdt]
      exact ⟨hc.1, hm1, hc.2.1⟩
    · rw [if_neg hc] at h
      exact Option.noConfusion h

theorem pyDateTimeMin_le_parse_date (s : Str) :
    pyDateLe pyDateTimeMin (parse_date s) := by
  rw [parse_date]
  cases h1 : strptimeDate monthAbbrevNames s with
  | some dt =>
    have hb := strptimeDate_bounds h1
    show pyDateLe pyDateTimeMin dt
    unfold pyDateLe pyDateTimeMin
    simp only
    omega
  | none =>
    cases h2 : strptimeDate monthFullNames s with
    | some dt =>
      have hb := strptimeDate_bounds h2
      show pyDateLe pyDateTimeMin dt
      unfold pyDateLe pyDateTimeMin
      simp only
      omega
    | none =>
      show pyDateLe pyDateTimeMin pyDateTimeMin
      unfold pyDateLe
      simp

/-! ### The claims -/

/-- C1 falsified as stated: with one MP registered under `"NSW"` and a single
letter whose `ELECTORATE` field is `"NSW"` and whose `STATE` field is also
`"NSW"`, the extracted token list is `["NSW", "NSW"]` and the letter is
appended twice to that MP's bucket, so it does not appear at most once, and
the total pair count (2) differs from the sum of distinct matching
representative keys (1). -/
theorem claim_C1_counterexample :
    tokensOf nswLetter = ["NSW".toList, "NSW".toList] ∧
    (bget (electorateLetters (buildMpDict [nswRow]) [nswLetter])
      (mpKeyOf nswRow)).count (copyOf nswLetter) = 2 ∧
    totalPairs (electorateLetters (buildMpDict [nswRow]) [nswLetter]) = 2 ∧
    (([nswLetter] : List LetterRow).map (fun l =>
      ((buildMpDict [nswRow]).filter
        (fun kv => decide (kv.2.electorate ∈ tokensOf l))).length)).sum = 1 :=
  ⟨by decide, by decide, by decide, by decide⟩

/-- C1 (amended): each matching representative receives one copy of a letter
per occurrence of that representative's electorate string in the letter's
token list, so the total pair count is the sum over letters and token
occurrences of the number of matching keys; when every letter's token list
has no duplicate tokens, each letter appears at most once per bucket (the
bucket is exactly the list of copies of the letters matching that
representative, in order) and the total pair count equals the sum over
letters of the number of distinct representative keys matching at least one
token. -/
theorem claim_C1 :
    ∀ (mps : List MPRow) (letters : List LetterRow),
      totalPairs (electorateLetters (buildMpDict mps) letters) =
        (letters.map (fun l => ((tokensOf l).map
          (fun t => (matchingMps (buildMpDict mps) t).length)).sum)).sum ∧
      ((∀ l ∈ letters, (tokensOf l).Nodup) →
        (∀ (k : Str) (info : MPInfo), alookup (buildMpDict mps) k = some info →
          bget (electorateLetters (buildMpDict mps) letters) k =
            (letters.filter (fun l => decide (info.electorate ∈ tokensOf l))).map
              copyOf) ∧
        totalPairs (electorateLetters (buildMpDict mps) letters) =
          (letters.map (fun l => ((buildMpDict mps).filter
            (fun kv => decide (kv.2.electorate ∈ tokensOf l))).length)).sum) := by
  intro mps letters
  constructor
  · exact totalPairs_electorateLetters _ _
  · intro hnd
    constructor
    · intro k info hlk
      rw [bget_electorateLetters_of_alookup hlk,
        show letters.map (fun l => List.replicate
            ((tokensOf l).count info.electorate) (copyOf l)) =
          letters.map (fun l =>
            if info.electorate ∈ tokensOf l then [copyOf l] else []) from
          List.map_congr_left (fun l hl => replicate_count_of_nodup (hnd l hl) _ _)]
      exact flatten_ite_eq_filter_map letters info.electorate
    · rw [totalPairs_electorateLetters]
      congr 1
      apply List.map_congr_left
      intro l hl
      rw [sum_matching_swap, sum_count_eq_length_filter _ (hnd l hl)]

/-- Witness for the amended C1 at the spec's own example: a letter with
electorate field `"Bruce, Hotham"` and state `"VIC"` against MPs for Bruce
and Hotham. -/
theorem claim_C1_witness :
    (∀ l ∈ ([bruceHothamLetter] : List LetterRow), (tokensOf l).Nodup) ∧
    (totalPairs (electorateLetters (buildMpDict [bruceRow, hothamRow])
        [bruceHothamLetter]) =
      (([bruceHothamLetter] : List LetterRow).map (fun l =>
        ((tokensOf l).map (fun t =>
          (matchingMps (buildMpDict [bruceRow, hothamRow]) t).length)).sum)).sum ∧
      ((∀ l ∈ ([bruceHothamLetter] : List LetterRow), (tokensOf l).Nodup) →
        (∀ (k : Str) (info : MPInfo),
          alookup (buildMpDict [bruceRow, hothamRow]) k = some info →
          bget (electorateLetters (buildMpDict [bruceRow, hothamRow])
              [bruceHothamLetter]) k =
            (([bruceHothamLetter] : List LetterRow).filter
              (fun l => decide (info.electorate ∈ tokensOf l))).map copyOf) ∧
        totalPairs (electorateLetters (buildMpDict [bruceRow, hothamRow])
            [bruceHothamLetter]) =
          (([bruceHothamLetter] : List LetterRow).map (fun l =>
            ((buildMpDict [bruceRow, hothamRow]).filter
              (fun kv => decide (kv.2.electorate ∈ tokensOf l))).length)).sum)) :=
  ⟨by decide, claim_C1 [bruceRow, hothamRow] [bruceHothamLetter]⟩

/-- C2: the candidate token list is computed by splitting the raw
`ELECTORATE` field on newlines, then on commas, trimming each token and
discarding empty ones, with the trimmed `STATE` field appended when
non-empty: the source computation coincides with the spec's procedure
(`specTokens`), an all-whitespace field yields no tokens besides the state
fallback, and `"A, B\nC"` yields exactly `["A", "B", "C"]`. -/
theorem claim_C2 :
    (∀ field st : Str, extractTokens field st = specTokens field st) ∧
    (∀ field st : Str, (∀ c ∈ field, pyIsSpace c = true) →
      extractTokens field st = if strip st = [] then [] else [strip st]) ∧
    extractTokens "A, B\nC".toList [] =
      ["A".toList, "B".toList, "C".toList] :=
  ⟨extractTokens_eq_specTokens,
   fun _ st h => extractTokens_of_whitespace h st,
   by decide⟩

/-- Witness for C2's whitespace clause: a field of two spaces with state
`" NSW "` yields exactly the stripped state token. -/
theorem claim_C2_witness :
    (∀ c ∈ ("  ".toList : Str), pyIsSpace c = true) ∧
    extractTokens "  ".toList " NSW ".toList =
      (if strip " NSW ".toList = [] then [] else [strip " NSW ".toList]) :=
  ⟨by decide, claim_C2.2.1 "  ".toList " NSW ".toList (by decide)⟩

/-- C3: each representative's letters are sorted ascending by the parsed
submission date (a permutation of the input, pairwise ordered under
`letterLe`); parsing accepts exactly the formats `"%b %d, %Y"` and
`"%B %d, %Y"` — a string accepted by neither is assigned `datetime.min`,
which compares less-or-equal to every parsed date, so it sorts first. -/
theorem claim_C3 :
    (∀ letters : List LetterCopy,
      (sortLettersByDate letters).Sorted letterLe ∧
      (sortLettersByDate letters).Perm letters) ∧
    (∀ s : Str, strptimeDate monthAbbrevNames s = none →
      strptimeDate monthFullNames s = none → parse_date s = pyDateTimeMin) ∧
    (∀ s : Str, pyDateLe pyDateTimeMin (parse_date s)) ∧
    parse_date "Jun 28, 2025".toList = ⟨2025, 6, 28⟩ ∧
    parse_date "June 28, 2025".toList = ⟨2025, 6, 28⟩ := by
  refine ⟨fun letters => ⟨List.sorted_insertionSort letterLe letters,
    List.perm_insertionSort letterLe letters⟩, ?_,
    pyDateTimeMin_le_parse_date, by decide, by decide⟩
  intro s h1 h2
  rw [parse_date, h1, h2]

/-- Witness for C3's fallback clause: a non-date string matches neither
format and is assigned the sentinel minimum date. -/
theorem claim_C3_witness :
    strptimeDate monthAbbrevNames "not a date".toList = none ∧
    strptimeDate monthFullNames "not a date".toList = none ∧
    parse_date "not a date".toList = pyDateTimeMin :=
  ⟨by decide, by decide, claim_C3.2.1 "not a date".toList (by decide) (by decide)⟩

/-- C4: the substitution is exactly Python's `str.replace` of the literal
token `"[MP Name]"` by the salutation and last name joined by a space: a
body without the token is unchanged (no other placeholder is recognised),
and at each leftmost occurrence the token is rewritten and replacement
continues on the remainder, so every occurrence is replaced — as the
concrete two-occurrence example shows. -/
theorem claim_C4 :
    (∀ body salutation lastName : Str,
      replaceMpNameInLetter body salutation lastName =
        replaceAll mpPlaceholder (salutation ++ (' ' :: []) ++ lastName) body) ∧
    (∀ body salutation lastName : Str, ¬ mpPlaceholder <:+: body →
      replaceMpNameInLetter body salutation lastName = body) ∧
    (∀ a b salutation lastName : Str,
      ¬ mpPlaceholder <:+: (a ++ mpPlaceholder).dropLast →
      replaceMpNameInLetter (a ++ mpPlaceholder ++ b) salutation lastName =
        a ++ (salutation ++ (' ' :: []) ++ lastName) ++
          replaceMpNameInLetter b salutation lastName) ∧
    replaceMpNameInLetter "Dear [MP Name], hi [MP Name].".toList
        "Mr".toList "Smith".toList = "Dear Mr Smith, hi Mr Smith.".toList := by
  refine ⟨fun _ _ _ => rfl, ?_, ?_, ?_⟩
  · intro body sal ln h
    exact replaceAll_no_occurrence h
  · intro a b sal ln h
    exact replaceAll_leftmost mpPlaceholder _ (by decide) a b h
  · rw [show ("Dear [MP Name], hi [MP Name].".toList : Str) =
      "Dear ".toList ++ mpPlaceholder ++
        (", hi ".toList ++ mpPlaceholder ++ ".".toList) from by decide]
    rw [show replaceMpNameInLetter ("Dear ".toList ++ mpPlaceholder ++
        (", hi ".toList ++ mpPlaceholder ++ ".".toList)) "Mr".toList
        "Smith".toList = replaceAll mpPlaceholder ("Mr".toList ++
        (' ' :: []) ++ "Smith".toList) ("Dear ".toList ++ mpPlaceholder ++
        (", hi ".toList ++ mpPlaceholder ++ ".".toList)) from rfl]
    rw [replaceAll_leftmost mpPlaceholder _ (by decide) _ _ (by decide)]
    rw [replaceAll_leftmost mpPlaceholder _ (by decide) _ _ (by decide)]
    rw [replaceAll_no_occurrence (by decide)]
    decide

/-- Witness for C4's clauses with hypotheses: the no-occurrence clause on a
placeholder-free body, and the leftmost-occurrence clause at a concrete
split. -/
theorem claim_C4_witness :
    (¬ mpPlaceholder <:+: "Hello there.".toList ∧
      replaceMpNameInLetter "Hello there.".toList "Mr".toList "Smith".toList =
        "Hello there.".toList) ∧
    (¬ mpPlaceholder <:+: ("Dear ".toList ++ mpPlaceholder).dropLast ∧
      replaceMpNameInLetter ("Dear ".toList ++ mpPlaceholder ++ ", bye".toList)
          "Mr".toList "Smith".toList =
        "Dear ".toList ++ ("Mr".toList ++ (' ' :: []) ++ "Smith".toList) ++
          replaceMpNameInLetter ", bye".toList "Mr".toList "Smith".toList) :=
  ⟨⟨by decide, claim_C4.2.1 _ _ _ (by decide)⟩,
   ⟨by decide, claim_C4.2.2.1 _ _ _ _ (by decide)⟩⟩

/-- C5: a representative none of whose letters match (the representative's
electorate string is a token of no letter) is entirely absent from
`process_files`' output, and no key of the assignment map is ever bound to
an empty list. -/
theorem claim_C5 :
    ∀ (mps : List MPRow) (letters : List LetterRow),
      (∀ (k : Str) (info : MPInfo), alookup (buildMpDict mps) k = some info →
        (∀ l ∈ letters, info.electorate ∉ tokensOf l) →
        k ∉ (processFiles mps letters).map Prod.fst) ∧
      (∀ (k : Str) (ls : List LetterCopy),
        alookup (electorateLetters (buildMpDict mps) letters) k = some ls →
        ls ≠ []) := by
  intro mps letters
  constructor
  · intro k info hlk hnone
    apply notMem_keys_processFiles
    apply alookup_electorateLetters_eq_none
    rw [bget_electorateLetters_of_alookup hlk]
    rw [List.flatten_eq_nil_iff]
    intro x hx
    rcases List.mem_map.mp hx with ⟨l, hl, rfl⟩
    rw [List.count_eq_zero.mpr (hnone l hl)]
    rfl
  · intro k ls hlk
    exact buckets_nonempty_electorateLetters _ _ (k, ls)
      (mem_of_alookup_eq_some hlk)

/-- Witness for C5: an MP for electorate `"Bean"` with a single letter for
`"Aston"` (state `"QLD"`) is absent from the output keys. -/
theorem claim_C5_witness :
    (alookup (buildMpDict [beanRow]) (mpKeyOf beanRow) =
      some (mpInfoOf beanRow)) ∧
    (∀ l ∈ ([astonLetter] : List LetterRow),
      (mpInfoOf beanRow).electorate ∉ tokensOf l) ∧
    (mpKeyOf beanRow) ∉
      (processFiles [beanRow] [astonLetter]).map Prod.fst :=
  ⟨by decide, by decide,
   (claim_C5 [beanRow] [astonLetter]).1 (mpKeyOf beanRow) (mpInfoOf beanRow)
     (by decide) (by decide)⟩

/-- C6: for any candidate token, the matched representatives are exactly
those whose `State/Electorate` field (as stored in `mp_dict`) is
character-for-character equal to the token — plain string equality, with no
case-folding, fuzzy matching or further trimming — and each representative
key is matched at most once. -/
theorem claim_C6 :
    ∀ (mps : List MPRow) (tok k : Str),
      (k ∈ matchingMps (buildMpDict mps) tok ↔
        ∃ info : MPInfo, alookup (buildMpDict mps) k = some info ∧
          info.electorate = tok) ∧
      (matchingMps (buildMpDict mps) tok).Nodup := by
  intro mps tok k
  constructor
  · constructor
    · intro hm
      rcases List.mem_map.mp hm with ⟨kv, hkv, rfl⟩
      have hq := List.mem_filter.mp hkv
      exact ⟨kv.2,
        alookup_eq_some_of_mem (nodup_keys_buildMpDict mps) hq.1,
        of_decide_eq_true hq.2⟩
    · rintro ⟨info, hlk, helec⟩
      have hmem := mem_of_alookup_eq_some hlk
      exact List.mem_map.mpr
        ⟨(k, info), List.mem_filter.mpr ⟨hmem, decide_eq_true helec⟩, rfl⟩
  · exact List.Nodup.sublist
      (List.Sublist.map Prod.fst (List.filter_sublist _))
      (nodup_keys_buildMpDict mps)

/-- C7: every archive entry of a representative present in `mp_dict` is
named by the electorate and the full name, each with every occurrence of
`< > : " / \ | ? *` removed, joined as
`"<sanitized electorate>, <sanitized full name>.docx"`; in particular
`"Ryan/Test"` loses its `/` and a name containing `"` loses the quote. -/
theorem claim_C7 :
    (∀ (docs : List (Str × List Block)) (mpDict : List (Str × MPInfo))
        (k : Str) (doc : List Block) (info : MPInfo),
      (k, doc) ∈ docs → alookup mpDict k = some info →
      (info.electorate.filter (fun c => decide (c ∉ forbiddenFilenameChars)) ++
        (',' :: ' ' :: []) ++
        info.fullname.filter (fun c => decide (c ∉ forbiddenFilenameChars)) ++
        ".docx".toList, doc) ∈ createZipFile docs mpDict) ∧
    sanitizeComponent "Ryan/Test".toList = "RyanTest".toList ∧
    sanitizeComponent "O\"Brien".toList = "OBrien".toList := by
  refine ⟨?_, by decide, by decide⟩
  intro docs mpDict k doc info hmem hlk
  apply List.mem_map.mpr
  refine ⟨(k, doc), hmem, ?_⟩
  simp only [zipEntryName, hlk, sanitizeComponent]

/-- Witness for C7: an MP for `"Ryan/Test"` named `James O"Brien` yields an
archive entry with the forbidden characters removed from both parts. -/
theorem claim_C7_witness :
    ((mpKeyOf ryanRow, ([] : List Block)) ∈
      ([(mpKeyOf ryanRow, ([] : List Block))] : List (Str × List Block))) ∧
    (alookup (buildMpDict [ryanRow]) (mpKeyOf ryanRow) =
      some (mpInfoOf ryanRow)) ∧
    ((mpInfoOf ryanRow).electorate.filter
        (fun c => decide (c ∉ forbiddenFilenameChars)) ++
      (',' :: ' ' :: []) ++
      (mpInfoOf ryanRow).fullname.filter
        (fun c => decide (c ∉ forbiddenFilenameChars)) ++
      ".docx".toList, ([] : List Block)) ∈
      createZipFile [(mpKeyOf ryanRow, ([] : List Block))]
        (buildMpDict [ryanRow]) :=
  ⟨by decide, by decide,
   claim_C7.1 [(mpKeyOf ryanRow, ([] : List Block))] (buildMpDict [ryanRow])
     (mpKeyOf ryanRow) [] (mpInfoOf ryanRow) (by decide) (by decide)⟩

/-- C8 falsified as stated: with the MP table missing `Salutation` and the
letter table missing `STATE`, the reported error names only `Salutation` —
the missing letter column `STATE` is required and absent yet is not named
in the report. -/
theorem claim_C8_counterexample :
    validateAndProcess
        ["First name".toList, "Last name".toList, "State/Electorate".toList]
        ["ELECTORATE".toList, "Submission Date".toList, "Your letter".toList,
          "POSTCODE".toList] [] [] =
      LoadOutcome.mpSchemaError ["Salutation".toList] ∧
    "STATE".toList ∈ requiredLetterColumns ∧
    "STATE".toList ∉ (["ELECTORATE".toList, "Submission Date".toList,
      "Your letter".toList, "POSTCODE".toList] : List Str) ∧
    "STATE".toList ∉ reportedMissing (validateAndProcess
        ["First name".toList, "Last name".toList, "State/Electorate".toList]
        ["ELECTORATE".toList, "Submission Date".toList, "Your letter".toList,
          "POSTCODE".toList] [] []) :=
  ⟨by decide, by decide, by decide, by decide⟩

/-- C8 (amended): missing columns are reported per table — when MP columns
are missing the error names exactly the missing MP columns (letter-table
omissions are not named) and no processing occurs; otherwise when letter
columns are missing the error names exactly those and no processing
occurs; when every required column is present, processing proceeds on the
two tables. -/
theorem claim_C8 :
    ∀ (mpCols letterCols : List Str) (mps : List MPRow)
      (letters : List LetterRow),
      (requiredMpColumns.filter (fun c => decide (c ∉ mpCols)) ≠ [] →
        validateAndProcess mpCols letterCols mps letters =
          LoadOutcome.mpSchemaError
            (requiredMpColumns.filter (fun c => decide (c ∉ mpCols))) ∧
        (∀ c ∈ requiredMpColumns, c ∉ mpCols →
          c ∈ reportedMissing (validateAndProcess mpCols letterCols mps letters))) ∧
      (requiredMpColumns.filter (fun c => decide (c ∉ mpCols)) = [] →
        requiredLetterColumns.filter (fun c => decide (c ∉ letterCols)) ≠ [] →
        validateAndProcess mpCols letterCols mps letters =
          LoadOutcome.letterSchemaError
            (requiredLetterColumns.filter (fun c => decide (c ∉ letterCols))) ∧
        (∀ c ∈ requiredLetterColumns, c ∉ letterCols →
          c ∈ reportedMissing (validateAndProcess mpCols letterCols mps letters))) ∧
      ((∀ c ∈ requiredMpColumns, c ∈ mpCols) →
        (∀ c ∈ requiredLetterColumns, c ∈ letterCols) →
        validateAndProcess mpCols letterCols mps letters =
          LoadOutcome.ok (processFiles mps letters)) := by
  intro mpCols letterCols mps letters
  refine ⟨?_, ?_, ?_⟩
  · intro hmp
    have he : validateAndProcess mpCols letterCols mps letters =
        LoadOutcome.mpSchemaError
          (requiredMpColumns.filter (fun c => decide (c ∉ mpCols))) := by
      simp only [validateAndProcess]
      rw [if_pos hmp]
    refine ⟨he, ?_⟩
    intro c hc hcn
    rw [he]
    exact List.mem_filter.mpr ⟨hc, decide_eq_true hcn⟩
  · intro hmp hlet
    have he : validateAndProcess mpCols letterCols mps letters =
        LoadOutcome.letterSchemaError
          (requiredLetterColumns.filter (fun c => decide (c ∉ letterCols))) := by
      simp only [validateAndProcess]
      rw [if_neg (fun hne => hne hmp), if_pos hlet]
    refine ⟨he, ?_⟩
    intro c hc hcn
    rw [he]
    exact List.mem_filter.mpr ⟨hc, decide_eq_true hcn⟩
  · intro hmp hlet
    have h1 : requiredMpColumns.filter (fun c => decide (c ∉ mpCols)) = [] := by
      rw [List.filter_eq_nil_iff]
      intro c hc
      simp [hmp c hc]
    have h2 : requiredLetterColumns.filter
        (fun c => decide (c ∉ letterCols)) = [] := by
      rw [List.filter_eq_nil_iff]
      intro c hc
      simp [hlet c hc]
    simp only [validateAndProcess]
    rw [if_neg (fun hne => hne h1), if_neg (fun hne => hne h2)]

/-- Witness for the amended C8: with exactly the required columns present,
processing proceeds. -/
theorem claim_C8_witness :
    (∀ c ∈ requiredMpColumns, c ∈ requiredMpColumns) ∧
    (∀ c ∈ requiredLetterColumns, c ∈ requiredLetterColumns) ∧
    validateAndProcess requiredMpColumns requiredLetterColumns [] [] =
      LoadOutcome.ok (processFiles [] []) :=
  ⟨by decide, by decide,
   (claim_C8 requiredMpColumns requiredLetterColumns [] []).2.2
     (by decide) (by decide)⟩

/-- C9: the generated document is, for the letters sorted ascending by
parsed date, the per-letter block sequences joined with a single page break
between consecutive letters and none after the last, where each letter's
sequence is a bold `"Date: ..."` line, an empty line, the body with the
placeholder substituted, an empty line, and a bold `"postcode, state"`
line. -/
theorem claim_C9 :
    ∀ (mpInfo : MPInfo) (letters : List LetterCopy),
      createDocxForElectorate mpInfo letters =
        List.intercalate [Block.pageBreak]
          ((sortLettersByDate letters).map (letterBlocks mpInfo)) ∧
      (∀ l : LetterCopy, letterBlocks mpInfo l =
        [Block.boldPara ("Date: ".toList ++ l.submissionDate),
         Block.emptyPara,
         Block.para (replaceMpNameInLetter l.yourLetter mpInfo.salutation
           mpInfo.lastName),
         Block.emptyPara,
         Block.boldPara (l.postcode ++ (',' :: ' ' :: []) ++ l.state)]) ∧
      (sortLettersByDate letters).Sorted letterLe ∧
      (sortLettersByDate letters).Perm letters :=
  fun mpInfo letters =>
    ⟨createDocx_eq_intercalate mpInfo letters, fun _ => rfl,
     List.sorted_insertionSort letterLe letters,
     List.perm_insertionSort letterLe letters⟩

/-- C10: representative identity is the concatenated string
`"<electorate>_<first name> <last name>"`; looking a key up in `mp_dict`
yields the `MPInfo` of the last table row with that key (later rows
silently overwrite earlier ones, as the concrete two-row example shows),
and both `mp_dict` and the `process_files` output have duplicate-free
keys, so at most one bucket and one document exist per key string. -/
theorem claim_C10 :
    (∀ mp : MPRow, mpKeyOf mp =
      mp.stateElectorate ++ ('_' :: []) ++ mp.firstName ++ (' ' :: []) ++
        mp.lastName) ∧
    (∀ (mps : List MPRow) (k : Str),
      alookup (buildMpDict mps) k =
        (mps.reverse.find? (fun mp => decide (mpKeyOf mp = k))).map mpInfoOf) ∧
    (∀ mps : List MPRow, ((buildMpDict mps).map Prod.fst).Nodup) ∧
    (∀ (mpDict : List (Str × MPInfo)) (letters : List LetterRow),
      ((electorateLetters mpDict letters).map Prod.fst).Nodup) ∧
    (∀ (mps : List MPRow) (letters : List LetterRow),
      ((processFiles mps letters).map Prod.fst).Nodup) ∧
    alookup (buildMpDict
        [⟨"Mr".toList, "David".toList, "Smith".toList, "Bean".toList⟩,
         ⟨"Dr".toList, "David".toList, "Smith".toList, "Bean".toList⟩])
      (mpKeyOf ⟨"Mr".toList, "David".toList, "Smith".toList, "Bean".toList⟩) =
      some (mpInfoOf ⟨"Dr".toList, "David".toList, "Smith".toList,
        "Bean".toList⟩) :=
  ⟨fun mp => by simp [mpKeyOf, fullNameOf],
   alookup_buildMpDict,
   nodup_keys_buildMpDict,
   nodup_keys_electorateLetters,
   fun mps letters => List.Nodup.sublist
     (keys_processFiles_sublist mps letters) (nodup_keys_buildMpDict mps),
   by decide⟩

example : parse_date "Jun 28, 2025".toList = ⟨2025, 6, 28⟩ := by decide
example : parse_date "June 28, 2025".toList = ⟨2025, 6, 28⟩ := by decide
example : parse_date "garbage".toList = pyDateTimeMin := by decide
example : parse_date "Feb 29, 2025".toList = pyDateTimeMin := by decide
example : parse_date "Feb 29, 2024".toList = ⟨2024, 2, 29⟩ := by decide
example : extractTokens "A, B\nC".toList [] = ["A".toList, "B".toList, "C".toList] := by decide
example : extractTokens "   ".toList " NSW ".toList = ["NSW".toList] := by decide
example : splitChar ',' [] = [[]] := by decide
